import Mathlib

/-!
# Referral system: hierarchy resolution and registration

A shallow embedding of `src/routes/user.js` and `src/models/User.js`.

* The `users` collection is a list of documents in query (insertion) order.
* `fetchUserHierarchy` is an `async` recursive function; it is embedded with an
  explicit recursion budget, and an exhausted budget is the `pending` outcome
  (a promise that never settles).
* `Promise.all` rejects as soon as one of its inputs rejects, also when another
  input never settles; `promiseAll` keeps that.
* The `apicache` middleware that `src/server.js` mounts in front of the router
  and the `authenticate` middleware are not part of the handlers embedded here.
* Library calls without source in the repository (`ObjectId.isValid`,
  the ObjectId cast, `isEmail`, `bcrypt.hash`, `Math.random`, the generated
  `_id`) are parameters.
-/

namespace ReferralSystem

/-! ## Data model (`src/models/User.js`) -/

abbrev ObjectId := Nat

/-- A document of the `users` collection (`userSchema`). -/
structure Account where
  _id : ObjectId
  username : String
  email : String
  password : String
  referralCode : String
  referredBy : Option ObjectId
  referredUsers : List ObjectId
  deriving DecidableEq, Repr

/-- The collection, in the order in which queries return its documents. -/
abbrev Store := List Account

/-- A plain object as produced by `.lean()` and then rewritten by
`fetchUserHierarchy`: `referredUsers` holds nested objects and `password`
may have been deleted. -/
inductive Node where
  | mk (_id : ObjectId) (username email : String) (password : Option String)
      (referralCode : String) (referredBy : Option ObjectId) (referredUsers : List Node)
  deriving Repr

namespace Node

def password : Node → Option String
  | mk _ _ _ pw _ _ _ => pw

def referredUsers : Node → List Node
  | mk _ _ _ _ _ _ kids => kids

/-- The statement `delete node.password`. -/
def deletePassword : Node → Node
  | mk i u e _ c r kids => mk i u e none c r kids

/-- No `password` field on this node nor on any node of its `referredUsers` tree. -/
def noPassword : Node → Bool
  | mk _ _ _ pw _ _ kids => pw.isNone && noPasswordAll kids
where
  /-- The same for every node of a list. -/
  noPasswordAll : List Node → Bool
    | [] => true
    | k :: ks => k.noPassword && noPasswordAll ks

/-- The statement `delete node.password` applied to every node of the tree. -/
def deletePasswordDeep : Node → Node
  | mk i u e _ c r kids => mk i u e none c r (deletePasswordDeepAll kids)
where
  /-- The same for every tree of a list. -/
  deletePasswordDeepAll : List Node → List Node
    | [] => []
    | k :: ks => k.deletePasswordDeep :: deletePasswordDeepAll ks

/-- The tree with the `password` field deleted on every node below the root;
the root keeps its own. -/
def deletePasswordBelow : Node → Node
  | mk i u e pw c r kids => mk i u e pw c r (deletePasswordDeep.deletePasswordDeepAll kids)

end Node

/-- The plain object of a document (`.lean()`), with the given `referredUsers`. -/
def Account.toObject (a : Account) (kids : List Node) : Node :=
  Node.mk a._id a.username a.email (some a.password) a.referralCode a.referredBy kids

/-! ## Promises and the persistence layer -/

/-- What an `async` function can throw here. -/
inductive Thrown where
  /-- An error raised by a mongoose query or save. -/
  | persistence (msg : String)
  /-- The TypeError of `delete refUser.password` when `refUser` is `null`. -/
  | nullDereference
  deriving DecidableEq, Repr

/-- The state a promise ends in; `pending` is a promise that never settles. -/
inductive Outcome (α : Type) where
  | pending
  | rejected (e : Thrown)
  | fulfilled (value : α)
  deriving Repr

/-- One more input in front of an already combined `Promise.all`: a rejection on
either side rejects, else a pending side keeps the whole pending. -/
def Outcome.andAll {α : Type} : Outcome α → Outcome (List α) → Outcome (List α)
  | .rejected e, _ => .rejected e
  | .pending, .rejected e => .rejected e
  | .pending, .pending => .pending
  | .pending, .fulfilled _ => .pending
  | .fulfilled _, .rejected e => .rejected e
  | .fulfilled _, .pending => .pending
  | .fulfilled v, .fulfilled vs => .fulfilled (v :: vs)

/-- The result of `Promise.all`: rejected when an input is rejected, pending when
none is rejected and one never settles, else the list of values in input order.
Of several rejections the first in list order is reported. -/
def promiseAll {α : Type} : List (Outcome α) → Outcome (List α)
  | [] => .fulfilled []
  | p :: ps => p.andAll (promiseAll ps)

/-- The two queries `fetchUserHierarchy` sends, each of which may fail:
`User.findById(id)` and `User.find({ referredBy: id })`. -/
structure StoreOps where
  findById : ObjectId → Except String (Option Account)
  find : ObjectId → Except String (List Account)

namespace User

/-- The query `User.findById(id)` on a collection. -/
def findById (s : Store) (id : ObjectId) : Option Account :=
  s.find? (fun a => a._id == id)

/-- The query `User.find({ referredBy: userId })` on a collection. -/
def findReferredBy (s : Store) (userId : ObjectId) : List Account :=
  s.filter (fun a => a.referredBy == some userId)

/-- The query `User.findOne({ referralCode })` on a collection. -/
def findOneByReferralCode (s : Store) (code : String) : Option Account :=
  s.find? (fun a => a.referralCode == code)

end User

/-- The queries of a collection whose persistence layer never fails. -/
def Store.ops (s : Store) : StoreOps where
  findById := fun i => .ok (User.findById s i)
  find := fun i => .ok (User.findReferredBy s i)

/-! ## `fetchUserHierarchy` and `GET /:id` (`src/routes/user.js`) -/

/-- The callback mapped over `referredUsers` inside `fetchUserHierarchy`, given
the outcome of its recursive call: `delete refUser.password; return refUser`. -/
def deleteChildPassword : Outcome (Option Node) → Outcome Node
  | .pending => .pending
  | .rejected e => .rejected e
  | .fulfilled none => .rejected .nullDereference
  | .fulfilled (some refUser) => .fulfilled refUser.deletePassword

/-- The function `fetchUserHierarchy(userId)`, with a recursion budget. -/
def fetchUserHierarchy (ops : StoreOps) : Nat → ObjectId → Outcome (Option Node)
  | 0, _ => .pending
  | fuel + 1, userId =>
    match ops.findById userId with
    | .error msg => .rejected (.persistence msg)
    | .ok none => .fulfilled none
    | .ok (some user) =>
      match ops.find userId with
      | .error msg => .rejected (.persistence msg)
      | .ok referredUsers =>
        match promiseAll (referredUsers.map fun referredUser =>
            deleteChildPassword (fetchUserHierarchy ops fuel referredUser._id)) with
        | .pending => .pending
        | .rejected e => .rejected e
        | .fulfilled nodes => .fulfilled (some (user.toObject nodes))

/-- A JSON response body. -/
inductive Body where
  | message (text : String)
  | errors (list : List String)
  | hierarchy (node : Node)
  | document (user : Account)

/-- An HTTP response: status code and JSON body. -/
structure Response where
  status : Nat
  body : Body

/-- The handler of `GET /:id` behind `authenticate`; `none` when no response is
ever sent. `isValid` is `mongoose.Types.ObjectId.isValid` and `castId` the cast
of the path parameter to an ObjectId. -/
def getUser (isValid : String → Bool) (castId : String → ObjectId)
    (ops : StoreOps) (fuel : Nat) (id : String) : Option Response :=
  if !isValid id then
    some ⟨400, .message "Invalid user ID format"⟩
  else
    match fetchUserHierarchy ops fuel (castId id) with
    | .pending => none
    | .rejected _ => some ⟨500, .message "Server error"⟩
    | .fulfilled none => some ⟨404, .message "User not found"⟩
    | .fulfilled (some userHierarchy) =>
      some ⟨200, .hierarchy userHierarchy.deletePassword⟩

/-! ## The calls a request makes -/

/-- What a request does at the persistence layer: a call of `fetchUserHierarchy`
and the two queries it sends. -/
inductive Event where
  | fetchUserHierarchy (userId : ObjectId)
  | findById (id : ObjectId)
  | find (referredBy : ObjectId)
  deriving DecidableEq, Repr

/-- The function `fetchUserHierarchy(userId)` together with the log of what it
does: every call is logged when it is entered and every query when it is sent,
in the order of the statements; the logs of the mapped calls follow in list
order. A call cut off by the budget is logged as entered. -/
def fetchUserHierarchyTraced (ops : StoreOps) :
    Nat → ObjectId → Outcome (Option Node) × List Event
  | 0, userId => (.pending, [.fetchUserHierarchy userId])
  | fuel + 1, userId =>
    match ops.findById userId with
    | .error msg =>
      (.rejected (.persistence msg), [.fetchUserHierarchy userId, .findById userId])
    | .ok none =>
      (.fulfilled none, [.fetchUserHierarchy userId, .findById userId])
    | .ok (some user) =>
      match ops.find userId with
      | .error msg =>
        (.rejected (.persistence msg),
          [.fetchUserHierarchy userId, .findById userId, .find userId])
      | .ok referredUsers =>
        let calls := referredUsers.map fun referredUser =>
          fetchUserHierarchyTraced ops fuel referredUser._id
        let events := [.fetchUserHierarchy userId, .findById userId, .find userId] ++
          (calls.map Prod.snd).foldr (· ++ ·) []
        match promiseAll (calls.map fun call => deleteChildPassword call.1) with
        | .pending => (.pending, events)
        | .rejected e => (.rejected e, events)
        | .fulfilled nodes => (.fulfilled (some (user.toObject nodes)), events)

/-- The handler of `GET /:id` together with the log of what it does at the
persistence layer. -/
def getUserTraced (isValid : String → Bool) (castId : String → ObjectId)
    (ops : StoreOps) (fuel : Nat) (id : String) : Option Response × List Event :=
  if !isValid id then
    (some ⟨400, .message "Invalid user ID format"⟩, [])
  else
    match fetchUserHierarchyTraced ops fuel (castId id) with
    | (.pending, events) => (none, events)
    | (.rejected _, events) => (some ⟨500, .message "Server error"⟩, events)
    | (.fulfilled none, events) => (some ⟨404, .message "User not found"⟩, events)
    | (.fulfilled (some userHierarchy), events) =>
      (some ⟨200, .hierarchy userHierarchy.deletePassword⟩, events)

/-! ## The referred-by relation -/

/-- The account with identifier `c` is referred by `p`: a document of the
collection has `_id = c` and `referredBy = p`. -/
def ReferredBy (s : Store) (c p : ObjectId) : Prop :=
  ∃ a ∈ s, a._id = c ∧ a.referredBy = some p

/-- No identifier reaches itself along one or more referred-by links. -/
def Acyclic (s : Store) : Prop :=
  ∀ i, ¬ Relation.TransGen (ReferredBy s) i i

/-- The identifier occurs nowhere in the referral graph of the collection: it is
no document's `_id` and no document's `referredBy`. -/
def FreshId (s : Store) (i : ObjectId) : Prop :=
  ∀ a ∈ s, a._id ≠ i ∧ a.referredBy ≠ some i

/-- The stored `referredUsers` list of every account holds exactly the
identifiers of the accounts referred by it. -/
def ReferredUsersExact (s : Store) : Prop :=
  ∀ a ∈ s, ∀ i, i ∈ a.referredUsers ↔ ∃ c ∈ s, c._id = i ∧ c.referredBy = some a._id

/-- A document without its denormalized `referredUsers` list. -/
def Account.forgetReferredUsers (a : Account) : Account :=
  { a with referredUsers := [] }

/-! ## The reference tree of the specification -/

/-- All values of a list of optional values, if none is missing. -/
def collect {α : Type} : List (Option α) → Option (List α)
  | [] => some []
  | none :: _ => none
  | some v :: rest => (collect rest).map (v :: ·)

/-- The reference tree `T(A)`: the record of `A` with `referredUsers` replaced by
`[T(c)]` for the accounts `c` of the collection with `c.referredBy = A`, each
once, in query order. Accounts are named by their identifier. The first
argument bounds the depth; `none` when the bound is reached or `A` names no
account. -/
def referenceTree (s : Store) : Nat → ObjectId → Option Node
  | 0, _ => none
  | depth + 1, A =>
    match User.findById s A with
    | none => none
    | some record =>
      (collect ((User.findReferredBy s A).map fun c => referenceTree s depth c._id)).map
        record.toObject

/-! ## Calls made by a traversal -/

/-- The traversal started by `fetchUserHierarchy u` calls `fetchUserHierarchy v`:
either `v` is `u`, or both queries at `u` succeed and the call for one of the
returned documents does. -/
inductive Reaches (ops : StoreOps) : ObjectId → ObjectId → Prop where
  | root (u : ObjectId) : Reaches ops u u
  | child {u v : ObjectId} {user : Account} {cs : List Account} {c : Account} :
      ops.findById u = .ok (some user) → ops.find u = .ok cs → c ∈ cs →
      Reaches ops c._id v → Reaches ops u v

/-- A query sent by the call `fetchUserHierarchy v` fails: its `findById`, or,
when that one returned a document, its `find`. -/
def QueryFails (ops : StoreOps) (v : ObjectId) : Prop :=
  (∃ msg, ops.findById v = .error msg) ∨
    (∃ user msg, ops.findById v = .ok (some user) ∧ ops.find v = .error msg)

/-- Both queries of the call `fetchUserHierarchy v` succeed and the document exists. -/
def QueriesSucceed (ops : StoreOps) (v : ObjectId) : Prop :=
  (∃ user, ops.findById v = .ok (some user)) ∧ (∃ cs, ops.find v = .ok cs)

/-! ## `POST /register` (`src/routes/user.js`, `userSchema.pre('save')`) -/

/-- The JSON body of a registration request; an absent string field is `""`. -/
structure RegisterRequest where
  username : String
  email : String
  password : String
  referralCode : Option String

/-- What the libraries and the persistence layer contribute to one request. -/
structure RegisterEnv where
  /-- The `_id` that `new User(...)` generates. -/
  newId : ObjectId
  /-- The value of `generateReferralCode()`. -/
  generatedCode : String
  /-- The validator `isEmail()`. -/
  isEmail : String → Bool
  /-- The function `bcrypt.hash` with the generated salt. -/
  hash : String → String
  /-- The query `User.findOne({ referralCode })` raises. -/
  findOneFails : Bool
  /-- The call `referrer.save()` raises. -/
  referrerSaveFails : Bool
  /-- The call `newUser.save()` raises for a reason other than a schema or index
  violation (connection loss, bcrypt error). -/
  newUserSaveFails : Bool

/-- The messages of `validationResult(req)`. -/
def validationResult (isEmail : String → Bool) (req : RegisterRequest) : List String :=
  (if req.username.isEmpty then ["Username is required"] else []) ++
  (if !isEmail req.email then ["Valid email is required"] else []) ++
  (if req.password.isEmpty then ["Password is required"] else [])

/-- The effect of `referrer.referredUsers.push(newId); referrer.save()` on the
collection: the stored document with that `_id` gets `newId` appended. -/
def pushReferredUser : Store → ObjectId → ObjectId → Store
  | [], _, _ => []
  | a :: rest, referrerId, newId =>
    if a._id == referrerId then
      { a with referredUsers := a.referredUsers ++ [newId] } :: rest
    else
      a :: pushReferredUser rest referrerId newId

/-- The insert of `newUser.save()` is refused: a `required` path is empty, or
the `_id`, `email` or `referralCode` index already holds the value. -/
def insertRefused (s : Store) (newUser : Account) : Bool :=
  newUser.username.isEmpty || newUser.email.isEmpty || newUser.password.isEmpty ||
    newUser.referralCode.isEmpty ||
    s.any (fun a => a._id == newUser._id || a.email == newUser.email ||
      a.referralCode == newUser.referralCode)

/-- The tail of the handler: `await newUser.save(); res.status(201).json(newUser)`,
with the pre-save hook hashing the password, and the `catch` branch. -/
def saveNewUser (env : RegisterEnv) (s : Store) (newUser : Account) : Store × Response :=
  if env.newUserSaveFails || insertRefused s newUser then
    (s, ⟨500, .message "Server error"⟩)
  else
    let saved := { newUser with password := env.hash newUser.password }
    (s ++ [saved], ⟨201, .document saved⟩)

/-- The handler of `POST /register`: the collection afterwards and the response. -/
def register (env : RegisterEnv) (s : Store) (req : RegisterRequest) : Store × Response :=
  let errors := validationResult env.isEmail req
  if !errors.isEmpty then
    (s, ⟨400, .errors errors⟩)
  else
    let newUser : Account :=
      { _id := env.newId, username := req.username, email := req.email,
        password := req.password, referralCode := env.generatedCode,
        referredBy := none, referredUsers := [] }
    match req.referralCode with
    | none => saveNewUser env s newUser
    | some referralCode =>
      if referralCode.isEmpty then
        saveNewUser env s newUser
      else if env.findOneFails then
        (s, ⟨500, .message "Server error"⟩)
      else
        match User.findOneByReferralCode s referralCode with
        | none => (s, ⟨400, .message "Invalid referral code"⟩)
        | some referrer =>
          if env.referrerSaveFails then
            (s, ⟨500, .message "Server error"⟩)
          else
            saveNewUser env (pushReferredUser s referrer._id env.newId)
              { newUser with referredBy := some referrer._id }

/-- A response body carries a `password` field. -/
def Body.hasPassword : Body → Bool
  | .message _ => false
  | .errors _ => false
  | .hierarchy node => !node.noPassword
  | .document _ => true

/-- The collections that sequences of `POST /register` requests produce from the
empty collection, each request with an `_id` that occurs nowhere so far. -/
inductive Reachable : Store → Prop where
  | empty : Reachable []
  | register {s : Store} (env : RegisterEnv) (req : RegisterRequest) :
      Reachable s → FreshId s env.newId → Reachable (register env s req).1

/-! ## Example collections -/

/-- The chain alice ← bob ← carol. -/
def chainStore : Store :=
  [ ⟨1, "alice", "alice@example.com", "h1", "AAAAAA", none, [2]⟩,
    ⟨2, "bob", "bob@example.com", "h2", "BBBBBB", some 1, [3]⟩,
    ⟨3, "carol", "carol@example.com", "h3", "CCCCCC", some 2, []⟩ ]

/-- The scenario of the specification: bob and carol referred by alice, dave by bob. -/
def scenarioStore : Store :=
  [ ⟨1, "alice", "alice@example.com", "h1", "AAAAAA", none, [2, 3]⟩,
    ⟨2, "bob", "bob@example.com", "h2", "BBBBBB", some 1, [4]⟩,
    ⟨3, "carol", "carol@example.com", "h3", "CCCCCC", some 1, []⟩,
    ⟨4, "dave", "dave@example.com", "h4", "DDDDDD", some 2, []⟩ ]

/-- An environment for examples: `n` is the generated `_id`, `code` the generated
referral code; nothing fails. -/
def exampleEnv (n : ObjectId) (code : String) : RegisterEnv where
  newId := n
  generatedCode := code
  isEmail := fun e => e.data.contains '@'
  hash := fun p => "bcrypt:" ++ p
  findOneFails := false
  referrerSaveFails := false
  newUserSaveFails := false

/-- The queries of a collection with injected faults: `findById i` fails when
`failFindById i`, and `find i` fails when `failFind i`. -/
def faultyOps (s : Store) (failFindById failFind : ObjectId → Bool) : StoreOps where
  findById := fun i =>
    if failFindById i then .error "findById failed" else .ok (User.findById s i)
  find := fun i =>
    if failFind i then .error "find failed" else .ok (User.findReferredBy s i)

/-- The value of a hexadecimal digit. -/
def hexValue (c : Char) : Option Nat :=
  if c.isDigit then some (c.toNat - 48)
  else if 'a' ≤ c ∧ c ≤ 'f' then some (c.toNat - 87)
  else if 'A' ≤ c ∧ c ≤ 'F' then some (c.toNat - 55)
  else none

/-- A validity check for examples, after `ObjectId.isValid` on strings: a string
of 12 characters or of 24 hexadecimal digits. -/
def exampleIsValid (id : String) : Bool :=
  id.data.length == 12 ||
    (id.data.length == 24 && id.data.all fun c => (hexValue c).isSome)

/-- A cast for examples: the number that the 24 hexadecimal digits denote, or
the 12 characters read as bytes. -/
def exampleCastId (id : String) : ObjectId :=
  if id.data.length == 24 then
    id.data.foldl (fun n c => 16 * n + (hexValue c).getD 0) 0
  else
    id.data.foldl (fun n c => 256 * n + c.toNat) 0

/-! ## Lemmas on `promiseAll` -/

theorem promiseAll_fulfilled_iff {α : Type} (ps : List (Outcome α)) (vs : List α) :
    promiseAll ps = .fulfilled vs ↔ ps = vs.map .fulfilled := by
  induction ps generalizing vs with
  | nil =>
    cases vs <;> simp [promiseAll]
  | cons p ps ih =>
    cases vs with
    | nil => cases p <;> cases h : promiseAll ps <;> simp [promiseAll, Outcome.andAll, h]
    | cons w ws =>
      have ih' := ih ws
      cases p <;> cases h : promiseAll ps <;>
        simp_all [promiseAll, Outcome.andAll]

theorem promiseAll_rejected_of_mem {α : Type} (ps : List (Outcome α)) (e : Thrown)
    (h : Outcome.rejected e ∈ ps) : ∃ e', promiseAll ps = .rejected e' := by
  induction ps with
  | nil => simp at h
  | cons p ps ih =>
    rcases List.mem_cons.mp h with rfl | h
    · exact ⟨e, by simp [promiseAll, Outcome.andAll]⟩
    · obtain ⟨e', he'⟩ := ih h
      cases p <;> simp [promiseAll, Outcome.andAll, he']

theorem mem_of_promiseAll_rejected {α : Type} (ps : List (Outcome α)) (e : Thrown)
    (h : promiseAll ps = .rejected e) : Outcome.rejected e ∈ ps := by
  induction ps with
  | nil => simp [promiseAll] at h
  | cons p ps ih =>
    cases p <;> cases h2 : promiseAll ps <;>
      simp_all [promiseAll, Outcome.andAll]

/-! ## The recursion budget -/

theorem deleteChildPassword_fulfilled {o : Outcome (Option Node)} {v : Node}
    (h : deleteChildPassword o = .fulfilled v) :
    ∃ w, o = .fulfilled (some w) ∧ v = w.deletePassword := by
  cases o with
  | pending => simp [deleteChildPassword] at h
  | rejected e => simp [deleteChildPassword] at h
  | fulfilled r =>
    cases r with
    | none => simp [deleteChildPassword] at h
    | some w => exact ⟨w, rfl, by simpa [deleteChildPassword] using h.symm⟩

/-- A fulfilled result is kept when the budget grows by one. -/
theorem fetchUserHierarchy_fulfilled_succ (ops : StoreOps) (n : Nat) :
    ∀ (u : ObjectId) (r : Option Node), fetchUserHierarchy ops n u = .fulfilled r →
      fetchUserHierarchy ops (n + 1) u = .fulfilled r := by
  induction n with
  | zero => intro u r h; simp [fetchUserHierarchy] at h
  | succ n ih =>
    intro u r h
    rw [fetchUserHierarchy] at h ⊢
    cases hf : ops.findById u with
    | error msg => simp [hf] at h
    | ok found =>
      cases found with
      | none => simpa [hf] using h
      | some user =>
        simp only [hf] at h ⊢
        cases hq : ops.find u with
        | error msg => simp [hq] at h
        | ok cs =>
          simp only [hq] at h ⊢
          have hmap : (cs.map fun c => deleteChildPassword (fetchUserHierarchy ops (n + 1) c._id))
              = cs.map fun c => deleteChildPassword (fetchUserHierarchy ops n c._id) := by
            cases hp : promiseAll (cs.map fun c =>
                deleteChildPassword (fetchUserHierarchy ops n c._id)) with
            | pending => simp [hp] at h
            | rejected e => simp [hp] at h
            | fulfilled nodes =>
              have hall := (promiseAll_fulfilled_iff _ _).mp hp
              apply List.map_congr_left
              intro c hc
              have hmem : deleteChildPassword (fetchUserHierarchy ops n c._id)
                  ∈ nodes.map Outcome.fulfilled := by
                rw [← hall]; exact List.mem_map_of_mem _ hc
              obtain ⟨v, _, hv⟩ := List.mem_map.mp hmem
              obtain ⟨w, hw, _⟩ := deleteChildPassword_fulfilled hv.symm
              rw [ih _ _ hw, hw]
          rw [hmap]
          exact h

theorem fetchUserHierarchy_fulfilled_mono (ops : StoreOps) {n m : Nat} (hnm : n ≤ m)
    {u : ObjectId} {r : Option Node} (h : fetchUserHierarchy ops n u = .fulfilled r) :
    fetchUserHierarchy ops m u = .fulfilled r := by
  induction hnm with
  | refl => exact h
  | step _ ih => exact fetchUserHierarchy_fulfilled_succ ops _ _ _ ih

/-! ## Acyclic collections -/

theorem ReferredBy.mem_ids {s : Store} {c p : ObjectId} (h : ReferredBy s c p) :
    c ∈ s.map (fun a => a._id) := by
  obtain ⟨a, ha, rfl, _⟩ := h
  exact List.mem_map_of_mem _ ha

/-- Induction along the referred-by links of an acyclic collection, with the
depth budget `s.length`: a chain of links never repeats an identifier. -/
theorem acyclic_budget_induction {s : Store} (hac : Acyclic s) (P : Nat → ObjectId → Prop)
    (step : ∀ n u, (∀ c, ReferredBy s c u → P n c) → P (n + 1) u) :
    ∀ n u, u ∈ s.map (fun a => a._id) → s.length < n → P n u := by
  have aux : ∀ n u (path : List ObjectId), path.Nodup →
      (∀ a ∈ path, a ∈ s.map (fun a => a._id)) →
      (∀ a ∈ path, Relation.TransGen (ReferredBy s) u a) →
      u ∈ s.map (fun a => a._id) → s.length < n + path.length → P n u := by
    intro n
    induction n with
    | zero =>
      intro u path hnd hsub _ _ hlen
      have := (List.subperm_of_subset hnd hsub).length_le
      simp at this hlen
      omega
    | succ n ih =>
      intro u path hnd hsub hanc hu hlen
      apply step
      intro c hc
      have hnot : u ∉ path := fun hmem => hac u (hanc u hmem)
      apply ih c (u :: path) (List.nodup_cons.mpr ⟨hnot, hnd⟩)
      · intro a ha
        rcases List.mem_cons.mp ha with rfl | ha
        · exact hu
        · exact hsub a ha
      · intro a ha
        rcases List.mem_cons.mp ha with rfl | ha
        · exact Relation.TransGen.single hc
        · exact Relation.TransGen.head hc (hanc a ha)
      · exact hc.mem_ids
      · simp only [List.length_cons]; omega
  intro n u hu hlen
  exact aux n u [] List.nodup_nil (by simp) (by simp) hu (by simpa using hlen)

/-- In an acyclic collection the referred-by relation is well-founded. -/
theorem Acyclic.wellFounded {s : Store} (hac : Acyclic s) : WellFounded (ReferredBy s) := by
  refine ⟨fun u => Acc.intro u fun c hc => ?_⟩
  exact acyclic_budget_induction hac (fun _ v => Acc (ReferredBy s) v)
    (fun _ v h => Acc.intro v h) (s.length + 1) c hc.mem_ids (Nat.lt_succ_self _)

/-! ## Queries on a collection -/

@[simp] theorem Store.ops_findById (s : Store) (i : ObjectId) :
    s.ops.findById i = .ok (User.findById s i) := rfl

@[simp] theorem Store.ops_find (s : Store) (i : ObjectId) :
    s.ops.find i = .ok (User.findReferredBy s i) := rfl

theorem User.findById_of_mem {s : Store} {a : Account} (h : a ∈ s) :
    ∃ b, User.findById s a._id = some b := by
  cases hf : User.findById s a._id with
  | some b => exact ⟨b, rfl⟩
  | none =>
    unfold User.findById at hf
    have := List.find?_eq_none.mp hf a h
    simp at this

theorem User.findById_eq_none_iff {s : Store} {i : ObjectId} :
    User.findById s i = none ↔ ∀ a ∈ s, a._id ≠ i := by
  unfold User.findById
  simp [List.find?_eq_none]

theorem User.mem_findReferredBy {s : Store} {u : ObjectId} {c : Account} :
    c ∈ User.findReferredBy s u ↔ c ∈ s ∧ c.referredBy = some u := by
  simp [User.findReferredBy]

/-! ## What `fetchUserHierarchy` returns -/

theorem fetchUserHierarchy_not_found (ops : StoreOps) (n : Nat) (u : ObjectId)
    (h : ops.findById u = .ok none) : fetchUserHierarchy ops (n + 1) u = .fulfilled none := by
  simp [fetchUserHierarchy, h]

/-- The call returns `null` only when its own `findById` found nothing. -/
theorem findById_of_fetchUserHierarchy_null (ops : StoreOps) (n : Nat) (u : ObjectId)
    (h : fetchUserHierarchy ops n u = .fulfilled none) : ops.findById u = .ok none := by
  cases n with
  | zero => simp [fetchUserHierarchy] at h
  | succ n =>
    rw [fetchUserHierarchy] at h
    cases hf : ops.findById u with
    | error msg => simp [hf] at h
    | ok found =>
      cases found with
      | none => rfl
      | some user =>
        simp only [hf] at h
        cases hq : ops.find u with
        | error msg => simp [hq] at h
        | ok cs =>
          simp only [hq] at h
          split at h <;> simp at h

theorem promiseAll_of_forall_fulfilled {α : Type} (ps : List (Outcome α))
    (h : ∀ p ∈ ps, ∃ v, p = .fulfilled v) : ∃ vs, promiseAll ps = .fulfilled vs := by
  induction ps with
  | nil => exact ⟨[], rfl⟩
  | cons p ps ih =>
    obtain ⟨v, rfl⟩ := h p (List.mem_cons_self _ _)
    obtain ⟨vs, hvs⟩ := ih fun q hq => h q (List.mem_cons_of_mem _ hq)
    exact ⟨v :: vs, by simp [promiseAll, Outcome.andAll, hvs]⟩

/-- One level of the traversal of a collection: when the calls for all referred
accounts are fulfilled within the budget, so is the call one level up. -/
theorem fetchUserHierarchy_step (s : Store) (n : Nat) (u : ObjectId)
    (h : ∀ c, ReferredBy s c u → ∃ r, fetchUserHierarchy s.ops n c = .fulfilled r) :
    ∃ r, fetchUserHierarchy s.ops (n + 1) u = .fulfilled r := by
  rw [fetchUserHierarchy]
  cases hf : User.findById s u with
  | none => exact ⟨none, by simp [hf]⟩
  | some user =>
    have hall : ∀ p ∈ (User.findReferredBy s u).map (fun c =>
        deleteChildPassword (fetchUserHierarchy s.ops n c._id)), ∃ v, p = .fulfilled v := by
      intro p hp
      obtain ⟨c, hc, rfl⟩ := List.mem_map.mp hp
      obtain ⟨hcs, hcu⟩ := User.mem_findReferredBy.mp hc
      obtain ⟨r, hr⟩ := h c._id ⟨c, hcs, rfl, hcu⟩
      cases r with
      | none =>
        have hnone := findById_of_fetchUserHierarchy_null _ _ _ hr
        obtain ⟨b, hb⟩ := User.findById_of_mem hcs
        simp [hb] at hnone
      | some w => exact ⟨w.deletePassword, by simp [hr, deleteChildPassword]⟩
    obtain ⟨vs, hvs⟩ := promiseAll_of_forall_fulfilled _ hall
    exact ⟨some (user.toObject vs), by simp [hf, hvs]⟩

/-- On an acyclic collection every call is fulfilled within the budget
`s.length + 1`, and with the same value for every larger budget. -/
theorem fetchUserHierarchy_fulfilled (s : Store) (hac : Acyclic s) (u : ObjectId) :
    ∃ r, ∀ fuel, s.length < fuel → fetchUserHierarchy s.ops fuel u = .fulfilled r := by
  have hone : ∃ r, fetchUserHierarchy s.ops (s.length + 1) u = .fulfilled r := by
    by_cases hu : u ∈ s.map (fun a => a._id)
    · exact acyclic_budget_induction hac
        (fun n v => ∃ r, fetchUserHierarchy s.ops n v = .fulfilled r)
        (fetchUserHierarchy_step s) (s.length + 1) u hu (Nat.lt_succ_self _)
    · refine ⟨none, fetchUserHierarchy_not_found _ _ _ ?_⟩
      have : User.findById s u = none :=
        User.findById_eq_none_iff.mpr fun a ha hau =>
          hu (List.mem_map.mpr ⟨a, ha, hau⟩)
      simp [this]
  obtain ⟨r, hr⟩ := hone
  exact ⟨r, fun fuel hfuel => fetchUserHierarchy_fulfilled_mono s.ops hfuel hr⟩

/-! ## Passwords in the result -/

theorem Node.noPasswordAll_iff (l : List Node) :
    Node.noPassword.noPasswordAll l = true ↔ ∀ k ∈ l, k.noPassword = true := by
  induction l with
  | nil => simp [Node.noPassword.noPasswordAll]
  | cons k ks ih => simp [Node.noPassword.noPasswordAll, ih]

theorem Node.noPassword_deletePassword (k : Node)
    (h : Node.noPassword.noPasswordAll k.referredUsers = true) :
    k.deletePassword.noPassword = true := by
  cases k with
  | mk i u e pw c r kids =>
    simpa [Node.deletePassword, Node.noPassword, Node.referredUsers] using h

/-- Whatever the queries return, no node below the root of a fulfilled result
has a `password` field. -/
theorem fetchUserHierarchy_children_noPassword (ops : StoreOps) (n : Nat) :
    ∀ (u : ObjectId) (node : Node), fetchUserHierarchy ops n u = .fulfilled (some node) →
      Node.noPassword.noPasswordAll node.referredUsers = true := by
  induction n with
  | zero => intro u node h; simp [fetchUserHierarchy] at h
  | succ n ih =>
    intro u node h
    rw [fetchUserHierarchy] at h
    cases hf : ops.findById u with
    | error msg => simp [hf] at h
    | ok found =>
      cases found with
      | none => simp [hf] at h
      | some user =>
        simp only [hf] at h
        cases hq : ops.find u with
        | error msg => simp [hq] at h
        | ok cs =>
          simp only [hq] at h
          cases hp : promiseAll (cs.map fun c =>
              deleteChildPassword (fetchUserHierarchy ops n c._id)) with
          | pending => simp [hp] at h
          | rejected e => simp [hp] at h
          | fulfilled nodes =>
            simp only [hp, Outcome.fulfilled.injEq, Option.some.injEq] at h
            subst h
            have hall := (promiseAll_fulfilled_iff _ _).mp hp
            rw [Account.toObject, Node.referredUsers, Node.noPasswordAll_iff]
            intro k hk
            have hmem : Outcome.fulfilled k ∈ cs.map (fun c =>
                deleteChildPassword (fetchUserHierarchy ops n c._id)) := by
              rw [hall]; exact List.mem_map_of_mem _ hk
            obtain ⟨c, _, hc⟩ := List.mem_map.mp hmem
            obtain ⟨w, hw, rfl⟩ := deleteChildPassword_fulfilled hc
            exact Node.noPassword_deletePassword w (ih _ _ hw)

/-- Claim C1. On an acyclic collection, `GET /:id` with a well-formed identifier of
an existing account answers 200 (for every budget above `s.length`, always with
the same body), and the body has no `password` field on the root nor on any
node of its `referredUsers` tree. -/
theorem getUser_ok_noPassword (isValid : String → Bool) (castId : String → ObjectId)
    (s : Store) (hac : Acyclic s) (id : String) (hvalid : isValid id = true)
    (a : Account) (ha : a ∈ s) (hid : castId id = a._id) :
    ∃ node, node.noPassword = true ∧ ∀ fuel, s.length < fuel →
      getUser isValid castId s.ops fuel id = some ⟨200, .hierarchy node⟩ := by
  obtain ⟨r, hr⟩ := fetchUserHierarchy_fulfilled s hac a._id
  cases r with
  | none =>
    have hnone := findById_of_fetchUserHierarchy_null _ _ _ (hr _ (Nat.lt_succ_self _))
    obtain ⟨b, hb⟩ := User.findById_of_mem ha
    simp [hb] at hnone
  | some w =>
    refine ⟨w.deletePassword, ?_, ?_⟩
    · exact Node.noPassword_deletePassword w
        (fetchUserHierarchy_children_noPassword _ _ _ _ (hr _ (Nat.lt_succ_self _)))
    · intro fuel hfuel
      simp [getUser, hvalid, hid, hr fuel hfuel]

/-- Claim C3. On an acyclic collection the referred-by relation is well-founded,
and `fetchUserHierarchy` settles for every identifier: every budget above
`s.length` gives the same fulfilled result (a tree or `null`), never a
rejection and never a pending call. -/
theorem fetchUserHierarchy_terminates (s : Store) (hac : Acyclic s) (userId : ObjectId) :
    WellFounded (ReferredBy s) ∧
      ∃ r, ∀ fuel, s.length < fuel → fetchUserHierarchy s.ops fuel userId = .fulfilled r :=
  ⟨hac.wellFounded, fetchUserHierarchy_fulfilled s hac userId⟩

/-- The traced function returns what `fetchUserHierarchy` returns. -/
theorem fetchUserHierarchyTraced_fst (ops : StoreOps) (n : Nat) :
    ∀ u, (fetchUserHierarchyTraced ops n u).1 = fetchUserHierarchy ops n u := by
  induction n with
  | zero => intro u; rfl
  | succ n ih =>
    intro u
    rw [fetchUserHierarchyTraced, fetchUserHierarchy]
    cases ops.findById u with
    | error msg => rfl
    | ok found =>
      cases found with
      | none => rfl
      | some user =>
        cases ops.find u with
        | error msg => rfl
        | ok cs =>
          simp only [List.map_map]
          have hmap : cs.map ((fun call : Outcome (Option Node) × List Event =>
                deleteChildPassword call.1) ∘
                fun referredUser : Account => fetchUserHierarchyTraced ops n referredUser._id)
              = cs.map fun referredUser =>
                deleteChildPassword (fetchUserHierarchy ops n referredUser._id) := by
            apply List.map_congr_left
            intro c _
            simp only [Function.comp, ih]
          rw [hmap]
          cases promiseAll (cs.map fun referredUser =>
            deleteChildPassword (fetchUserHierarchy ops n referredUser._id)) <;> rfl

/-- The traced handler answers what `getUser` answers. -/
theorem getUserTraced_fst (isValid : String → Bool) (castId : String → ObjectId)
    (ops : StoreOps) (fuel : Nat) (id : String) :
    (getUserTraced isValid castId ops fuel id).1 = getUser isValid castId ops fuel id := by
  unfold getUserTraced getUser
  split
  · rfl
  · rw [← fetchUserHierarchyTraced_fst]
    rcases fetchUserHierarchyTraced ops fuel (castId id) with ⟨o, events⟩
    cases o with
    | pending => rfl
    | rejected e => rfl
    | fulfilled r => cases r <;> rfl

/-- Every call of `fetchUserHierarchy` is logged, whatever the budget. -/
theorem fetchUserHierarchyTraced_head (ops : StoreOps) (n : Nat) (u : ObjectId) :
    ∃ rest, (fetchUserHierarchyTraced ops n u).2 = .fetchUserHierarchy u :: rest := by
  cases n with
  | zero => exact ⟨[], rfl⟩
  | succ n =>
    rw [fetchUserHierarchyTraced]
    cases ops.findById u with
    | error msg => exact ⟨_, rfl⟩
    | ok found =>
      cases found with
      | none => exact ⟨_, rfl⟩
      | some user =>
        cases ops.find u with
        | error msg => exact ⟨_, rfl⟩
        | ok cs =>
          simp only
          split <;> exact ⟨_, rfl⟩

/-- With a well-formed identifier the handler does call `fetchUserHierarchy`, and
with a positive budget the call sends `findById`: the log tells a handler that
validates first from one that queries first. -/
theorem getUserTraced_valid_id (isValid : String → Bool) (castId : String → ObjectId)
    (ops : StoreOps) (fuel : Nat) (id : String) (h : isValid id = true) :
    (∃ rest, (getUserTraced isValid castId ops fuel id).2
      = .fetchUserHierarchy (castId id) :: rest) ∧
    (∃ rest, (getUserTraced isValid castId ops (fuel + 1) id).2
      = .fetchUserHierarchy (castId id) :: .findById (castId id) :: rest) := by
  have hlog : ∀ n, (getUserTraced isValid castId ops n id).2
      = (fetchUserHierarchyTraced ops n (castId id)).2 := by
    intro n
    simp only [getUserTraced, h, Bool.not_true, Bool.false_eq_true, if_false]
    rcases fetchUserHierarchyTraced ops n (castId id) with ⟨o, events⟩
    cases o with
    | pending => rfl
    | rejected e => rfl
    | fulfilled r => cases r <;> rfl
  refine ⟨?_, ?_⟩
  · rw [hlog]; exact fetchUserHierarchyTraced_head ops fuel _
  · rw [hlog, fetchUserHierarchyTraced]
    cases ops.findById (castId id) with
    | error msg => exact ⟨_, rfl⟩
    | ok found =>
      cases found with
      | none => exact ⟨_, rfl⟩
      | some user =>
        cases ops.find (castId id) with
        | error msg => exact ⟨_, rfl⟩
        | ok cs =>
          simp only
          split <;> exact ⟨_, rfl⟩

/-- Claim C4. When `ObjectId.isValid` rejects the identifier, `GET /:id` answers 400
and its log is empty: no `findById`, no `find` and no call of
`fetchUserHierarchy`, whatever the queries would return and with any budget. -/
theorem getUser_invalid_id (isValid : String → Bool) (castId : String → ObjectId)
    (ops : StoreOps) (fuel : Nat) (id : String) (h : isValid id = false) :
    getUser isValid castId ops fuel id = some ⟨400, .message "Invalid user ID format"⟩ ∧
    getUserTraced isValid castId ops fuel id
      = (some ⟨400, .message "Invalid user ID format"⟩, []) := by
  constructor
  · simp [getUser, h]
  · simp [getUserTraced, h]

/-- Claim C5. For an identifier that no account of the collection has,
`fetchUserHierarchy` is fulfilled with `null` (no rejection) and `GET /:id`
answers 404; and whenever `fetchUserHierarchy` is fulfilled with `null`, no
account of the collection has the identifier. -/
theorem fetchUserHierarchy_null_iff_absent (s : Store) (userId : ObjectId) :
    ((∀ a ∈ s, a._id ≠ userId) →
      (∀ fuel, 0 < fuel → fetchUserHierarchy s.ops fuel userId = .fulfilled none) ∧
      (∀ (isValid : String → Bool) (castId : String → ObjectId) (id : String) (fuel : Nat),
        isValid id = true → castId id = userId → 0 < fuel →
        getUser isValid castId s.ops fuel id = some ⟨404, .message "User not found"⟩)) ∧
    (∀ fuel, fetchUserHierarchy s.ops fuel userId = .fulfilled none →
      ∀ a ∈ s, a._id ≠ userId) := by
  constructor
  · intro habs
    have hnone : s.ops.findById userId = .ok none := by
      simp [User.findById_eq_none_iff.mpr habs]
    have hfetch : ∀ fuel, 0 < fuel →
        fetchUserHierarchy s.ops fuel userId = .fulfilled none := by
      intro fuel hfuel
      obtain ⟨n, rfl⟩ := Nat.exists_eq_succ_of_ne_zero (Nat.pos_iff_ne_zero.mp hfuel)
      exact fetchUserHierarchy_not_found _ _ _ hnone
    refine ⟨hfetch, ?_⟩
    intro isValid castId id fuel hvalid hid hfuel
    simp [getUser, hvalid, hid, hfetch fuel hfuel]
  · intro fuel h
    have hnone := findById_of_fetchUserHierarchy_null _ _ _ h
    apply User.findById_eq_none_iff.mp
    simpa using hnone

/-! ## Failures during the traversal -/

theorem deleteChildPassword_rejected {o : Outcome (Option Node)} {e : Thrown}
    (h : deleteChildPassword o = .rejected e) :
    o = .rejected e ∨ (o = .fulfilled none ∧ e = .nullDereference) := by
  cases o with
  | pending => simp [deleteChildPassword] at h
  | rejected e' => left; simpa [deleteChildPassword] using h
  | fulfilled r =>
    cases r with
    | none => right; exact ⟨rfl, by simpa [deleteChildPassword] using h.symm⟩
    | some w => simp [deleteChildPassword] at h

/-- A rejection stays a rejection when the budget grows by one. -/
theorem fetchUserHierarchy_rejected_succ (ops : StoreOps) (n : Nat) :
    ∀ (u : ObjectId) (e : Thrown), fetchUserHierarchy ops n u = .rejected e →
      ∃ e', fetchUserHierarchy ops (n + 1) u = .rejected e' := by
  induction n with
  | zero => intro u e h; simp [fetchUserHierarchy] at h
  | succ n ih =>
    intro u e h
    rw [fetchUserHierarchy] at h ⊢
    cases hf : ops.findById u with
    | error msg => exact ⟨_, rfl⟩
    | ok found =>
      cases found with
      | none => simp [hf] at h
      | some user =>
        simp only [hf] at h ⊢
        cases hq : ops.find u with
        | error msg => exact ⟨_, rfl⟩
        | ok cs =>
          simp only [hq] at h ⊢
          cases hp : promiseAll (cs.map fun c =>
              deleteChildPassword (fetchUserHierarchy ops n c._id)) with
          | pending => simp [hp] at h
          | fulfilled nodes => simp [hp] at h
          | rejected e1 =>
            obtain ⟨c, hc, hce⟩ := List.mem_map.mp (mem_of_promiseAll_rejected _ _ hp)
            have hnext : ∃ e2, deleteChildPassword (fetchUserHierarchy ops (n + 1) c._id)
                = .rejected e2 := by
              rcases deleteChildPassword_rejected hce with hr | ⟨hr, _⟩
              · obtain ⟨e2, he2⟩ := ih _ _ hr
                exact ⟨e2, by rw [he2]; rfl⟩
              · rw [fetchUserHierarchy_fulfilled_succ ops n _ _ hr]
                exact ⟨_, rfl⟩
            obtain ⟨e2, he2⟩ := hnext
            obtain ⟨e3, he3⟩ := promiseAll_rejected_of_mem
              (cs.map fun c => deleteChildPassword (fetchUserHierarchy ops (n + 1) c._id)) e2
              (List.mem_map.mpr ⟨c, hc, he2⟩)
            exact ⟨e3, by rw [he3]⟩

theorem fetchUserHierarchy_rejected_mono (ops : StoreOps) {n m : Nat} (hnm : n ≤ m)
    {u : ObjectId} (h : ∃ e, fetchUserHierarchy ops n u = .rejected e) :
    ∃ e, fetchUserHierarchy ops m u = .rejected e := by
  induction hnm with
  | refl => exact h
  | step _ ih =>
    obtain ⟨e, he⟩ := ih
    exact fetchUserHierarchy_rejected_succ ops _ _ _ he

/-- A failing query of a call made by the traversal rejects the whole
traversal, for every large enough budget. -/
theorem fetchUserHierarchy_rejected_of_reaches (ops : StoreOps) {u v : ObjectId}
    (hreach : Reaches ops u v) (hfail : QueryFails ops v) :
    ∃ N, ∀ fuel, N ≤ fuel → ∃ e, fetchUserHierarchy ops fuel u = .rejected e := by
  induction hreach with
  | root u =>
    refine ⟨1, fun fuel hfuel => fetchUserHierarchy_rejected_mono ops hfuel ?_⟩
    rcases hfail with ⟨msg, hmsg⟩ | ⟨user, msg, huser, hmsg⟩
    · exact ⟨.persistence msg, by simp [fetchUserHierarchy, hmsg]⟩
    · exact ⟨.persistence msg, by simp [fetchUserHierarchy, huser, hmsg]⟩
  | @child u v user cs c hf hq hc _ ih =>
    obtain ⟨N, hN⟩ := ih hfail
    refine ⟨N + 1, fun fuel hfuel => fetchUserHierarchy_rejected_mono ops hfuel ?_⟩
    obtain ⟨e, he⟩ := hN N (Nat.le_refl _)
    obtain ⟨e', he'⟩ := promiseAll_rejected_of_mem
      (cs.map fun c => deleteChildPassword (fetchUserHierarchy ops N c._id)) e
      (List.mem_map.mpr ⟨c, hc, by rw [he]; rfl⟩)
    exact ⟨e', by simp [fetchUserHierarchy, hf, hq, he']⟩

/-- A fulfilled traversal that found the root: every call it made found its
document and had both queries succeed. -/
theorem queriesSucceed_of_fetchUserHierarchy (ops : StoreOps) {u v : ObjectId}
    (hreach : Reaches ops u v) :
    ∀ (fuel : Nat) (node : Node), fetchUserHierarchy ops fuel u = .fulfilled (some node) →
      QueriesSucceed ops v := by
  induction hreach with
  | root u =>
    intro fuel node h
    cases fuel with
    | zero => simp [fetchUserHierarchy] at h
    | succ n =>
      rw [fetchUserHierarchy] at h
      cases hf : ops.findById u with
      | error msg => simp [hf] at h
      | ok found =>
        cases found with
        | none => simp [hf] at h
        | some user =>
          simp only [hf] at h
          cases hq : ops.find u with
          | error msg => simp [hq] at h
          | ok cs => exact ⟨⟨user, hf⟩, ⟨cs, hq⟩⟩
  | @child u v user cs c hf hq hc _ ih =>
    intro fuel node h
    cases fuel with
    | zero => simp [fetchUserHierarchy] at h
    | succ n =>
      rw [fetchUserHierarchy] at h
      simp only [hf, hq] at h
      cases hp : promiseAll (cs.map fun c =>
          deleteChildPassword (fetchUserHierarchy ops n c._id)) with
      | pending => simp [hp] at h
      | rejected e => simp [hp] at h
      | fulfilled nodes =>
        have hall := (promiseAll_fulfilled_iff _ _).mp hp
        have hmem : deleteChildPassword (fetchUserHierarchy ops n c._id)
            ∈ nodes.map Outcome.fulfilled := by
          rw [← hall]; exact List.mem_map.mpr ⟨c, hc, rfl⟩
        obtain ⟨k, _, hk⟩ := List.mem_map.mp hmem
        obtain ⟨w, hw, _⟩ := deleteChildPassword_fulfilled hk.symm
        exact ih n w hw

/-- Claim C6. With fallible queries: when a query of any call made by the traversal
fails, `fetchUserHierarchy` is rejected and `GET /:id` answers 500 with a
message and no tree (for every large enough budget); and a budget for which
`GET /:id` answers 200 means that every call of the traversal found its
document and had both its queries succeed. -/
theorem getUser_all_or_nothing (isValid : String → Bool) (castId : String → ObjectId)
    (ops : StoreOps) (id : String) (hvalid : isValid id = true) :
    (∀ v, Reaches ops (castId id) v → QueryFails ops v →
      ∃ N, ∀ fuel, N ≤ fuel →
        (∃ e, fetchUserHierarchy ops fuel (castId id) = .rejected e) ∧
        getUser isValid castId ops fuel id = some ⟨500, .message "Server error"⟩) ∧
    (∀ fuel node, getUser isValid castId ops fuel id = some ⟨200, .hierarchy node⟩ →
      ∀ v, Reaches ops (castId id) v → QueriesSucceed ops v ∧ ¬ QueryFails ops v) := by
  constructor
  · intro v hreach hfail
    obtain ⟨N, hN⟩ := fetchUserHierarchy_rejected_of_reaches ops hreach hfail
    refine ⟨N, fun fuel hfuel => ?_⟩
    obtain ⟨e, he⟩ := hN fuel hfuel
    exact ⟨⟨e, he⟩, by simp [getUser, hvalid, he]⟩
  · intro fuel node h v hreach
    have hroot : ∃ w, fetchUserHierarchy ops fuel (castId id) = .fulfilled (some w) := by
      simp only [getUser, hvalid, Bool.not_true, Bool.false_eq_true, if_false] at h
      cases hr : fetchUserHierarchy ops fuel (castId id) with
      | pending => simp [hr] at h
      | rejected e => simp [hr] at h
      | fulfilled r =>
        cases r with
        | none => simp [hr] at h
        | some w => exact ⟨w, rfl⟩
    obtain ⟨w, hw⟩ := hroot
    have hok := queriesSucceed_of_fetchUserHierarchy ops hreach fuel w hw
    refine ⟨hok, ?_⟩
    obtain ⟨⟨user, huser⟩, ⟨cs, hcs⟩⟩ := hok
    rintro (⟨msg, hmsg⟩ | ⟨user', msg, _, hmsg⟩)
    · rw [huser] at hmsg; cases hmsg
    · rw [hcs] at hmsg; cases hmsg

/-! ## The `null` case below the root -/

/-- Claim C10. When every document that `find` returns is found by `findById` under
its `_id`: no call of `fetchUserHierarchy` is rejected with the TypeError of
`delete refUser.password` on `null`, and the recursive call for a document
returned by `find` never returns `null`. On an acyclic collection that call
is fulfilled with a node for every budget above `s.length`. -/
theorem fetchUserHierarchy_child_not_null (ops : StoreOps)
    (hkey : ∀ p cs c, ops.find p = .ok cs → c ∈ cs → ∃ a, ops.findById c._id = .ok (some a)) :
    (∀ fuel u, fetchUserHierarchy ops fuel u ≠ .rejected .nullDereference) ∧
    (∀ fuel p cs c, ops.find p = .ok cs → c ∈ cs →
      fetchUserHierarchy ops fuel c._id ≠ .fulfilled none) ∧
    (∀ s : Store, ops = s.ops → Acyclic s → ∀ p, ∀ c ∈ User.findReferredBy s p,
      ∃ node, ∀ fuel, s.length < fuel →
        fetchUserHierarchy ops fuel c._id = .fulfilled (some node)) := by
  have hnull : ∀ fuel p cs c, ops.find p = .ok cs → c ∈ cs →
      fetchUserHierarchy ops fuel c._id ≠ .fulfilled none := by
    intro fuel p cs c hq hc h
    obtain ⟨a, ha⟩ := hkey p cs c hq hc
    rw [findById_of_fetchUserHierarchy_null ops fuel _ h] at ha
    cases ha
  refine ⟨?_, hnull, ?_⟩
  · intro fuel
    induction fuel with
    | zero => intro u h; simp [fetchUserHierarchy] at h
    | succ n ih =>
      intro u h
      rw [fetchUserHierarchy] at h
      cases hf : ops.findById u with
      | error msg => simp [hf] at h
      | ok found =>
        cases found with
        | none => simp [hf] at h
        | some user =>
          simp only [hf] at h
          cases hq : ops.find u with
          | error msg => simp [hq] at h
          | ok cs =>
            simp only [hq] at h
            cases hp : promiseAll (cs.map fun c =>
                deleteChildPassword (fetchUserHierarchy ops n c._id)) with
            | pending => simp [hp] at h
            | fulfilled nodes => simp [hp] at h
            | rejected e =>
              simp only [hp, Outcome.rejected.injEq] at h
              subst h
              obtain ⟨c, hc, hce⟩ := List.mem_map.mp (mem_of_promiseAll_rejected _ _ hp)
              rcases deleteChildPassword_rejected hce with hr | ⟨hr, _⟩
              · exact ih _ hr
              · exact hnull n u cs c hq hc hr
  · rintro s rfl hac p c hc
    obtain ⟨r, hr⟩ := fetchUserHierarchy_fulfilled s hac c._id
    cases r with
    | none =>
      exact absurd (hr _ (Nat.lt_succ_self _))
        (hnull _ p _ c (Store.ops_find s p) hc)
    | some node => exact ⟨node, hr⟩

/-! ## The reference tree -/

theorem collect_eq_some_iff {α : Type} (os : List (Option α)) (vs : List α) :
    collect os = some vs ↔ os = vs.map some := by
  induction os generalizing vs with
  | nil => cases vs <;> simp [collect]
  | cons o os ih =>
    cases o with
    | none => cases vs <;> simp [collect]
    | some v =>
      cases vs with
      | nil => simp [collect]
      | cons w ws =>
        simp only [collect, Option.map_eq_some', List.map_cons, List.cons.injEq,
          Option.some.injEq]
        constructor
        · rintro ⟨us, hus, rfl, rfl⟩
          exact ⟨rfl, (ih us).mp hus⟩
        · rintro ⟨rfl, h⟩
          exact ⟨ws, (ih ws).mpr h, rfl, rfl⟩

theorem Node.deletePasswordDeepAll_eq_map (l : List Node) :
    Node.deletePasswordDeep.deletePasswordDeepAll l = l.map Node.deletePasswordDeep := by
  induction l with
  | nil => rfl
  | cons k ks ih => simp [Node.deletePasswordDeep.deletePasswordDeepAll, ih]

theorem Node.deletePassword_deletePasswordBelow (t : Node) :
    t.deletePasswordBelow.deletePassword = t.deletePasswordDeep := by
  cases t; simp [Node.deletePasswordBelow, Node.deletePassword, Node.deletePasswordDeep]

theorem Account.deletePasswordBelow_toObject (a : Account) (ts : List Node) :
    (a.toObject ts).deletePasswordBelow = a.toObject (ts.map Node.deletePasswordDeep) := by
  simp [Account.toObject, Node.deletePasswordBelow, Node.deletePasswordDeepAll_eq_map]

/-- The values of a fulfilled `Promise.all` over the child calls are the
reference trees of the children with every password deleted. -/
theorem collect_of_promiseAll {α : Type} (F : α → Outcome Node) (g : α → Option Node) :
    ∀ (cs : List α) (nodes : List Node), cs.map F = nodes.map .fulfilled →
      (∀ c ∈ cs, ∀ k, F c = .fulfilled k → ∃ t, g c = some t ∧ k = t.deletePasswordDeep) →
      ∃ ts, collect (cs.map g) = some ts ∧ nodes = ts.map Node.deletePasswordDeep := by
  intro cs
  induction cs with
  | nil =>
    intro nodes hF _
    cases nodes with
    | nil => exact ⟨[], rfl, rfl⟩
    | cons k ks => simp at hF
  | cons c cs ih =>
    intro nodes hF h
    cases nodes with
    | nil => simp at hF
    | cons k ks =>
      simp only [List.map_cons, List.cons.injEq] at hF
      obtain ⟨t, ht, hk⟩ := h c (List.mem_cons_self _ _) k hF.1
      obtain ⟨ts, hts, hks⟩ := ih ks hF.2 fun d hd => h d (List.mem_cons_of_mem _ hd)
      exact ⟨t :: ts, by simp [collect, ht, hts], by simp [hk, hks]⟩

/-- A fulfilled call returns the reference tree with the password deleted on
every node below the root. -/
theorem referenceTree_of_fetchUserHierarchy (s : Store) (n : Nat) :
    ∀ (u : ObjectId) (node : Node), fetchUserHierarchy s.ops n u = .fulfilled (some node) →
      ∃ t, referenceTree s n u = some t ∧ node = t.deletePasswordBelow := by
  induction n with
  | zero => intro u node h; simp [fetchUserHierarchy] at h
  | succ n ih =>
    intro u node h
    rw [fetchUserHierarchy] at h
    rw [referenceTree]
    cases hf : User.findById s u with
    | none => simp [hf] at h
    | some user =>
      simp only [Store.ops_findById, Store.ops_find, hf] at h ⊢
      cases hp : promiseAll ((User.findReferredBy s u).map fun c =>
          deleteChildPassword (fetchUserHierarchy s.ops n c._id)) with
      | pending => simp [hp] at h
      | rejected e => simp [hp] at h
      | fulfilled nodes =>
        simp only [hp, Outcome.fulfilled.injEq, Option.some.injEq] at h
        subst h
        obtain ⟨ts, hts, hnodes⟩ := collect_of_promiseAll
          (fun c : Account => deleteChildPassword (fetchUserHierarchy s.ops n c._id))
          (fun c : Account => referenceTree s n c._id) _ nodes
          ((promiseAll_fulfilled_iff _ _).mp hp)
          (by
            intro c _ k hk
            obtain ⟨w, hw, rfl⟩ := deleteChildPassword_fulfilled hk
            obtain ⟨t, ht, rfl⟩ := ih _ _ hw
            exact ⟨t, ht, Node.deletePassword_deletePasswordBelow t⟩)
        exact ⟨user.toObject ts, by simp [hts],
          by rw [hnodes, Account.deletePasswordBelow_toObject]⟩

/-! ## The stored `referredUsers` lists are not read -/

theorem fetchUserHierarchy_forgetReferredUsers (s : Store) (n : Nat) :
    ∀ u, fetchUserHierarchy (Store.ops (s.map Account.forgetReferredUsers)) n u
      = fetchUserHierarchy s.ops n u := by
  induction n with
  | zero => intro u; rfl
  | succ n ih =>
    intro u
    rw [fetchUserHierarchy, fetchUserHierarchy]
    have hfind : User.findById (s.map Account.forgetReferredUsers) u
        = (User.findById s u).map Account.forgetReferredUsers := by
      simp only [User.findById, List.find?_map]
      rfl
    have hquery : User.findReferredBy (s.map Account.forgetReferredUsers) u
        = (User.findReferredBy s u).map Account.forgetReferredUsers := by
      simp only [User.findReferredBy, List.filter_map]
      rfl
    simp only [Store.ops_findById, Store.ops_find, hfind, hquery]
    cases User.findById s u with
    | none => rfl
    | some user =>
      simp only [Option.map_some', List.map_map]
      have hmap : (User.findReferredBy s u).map ((fun referredUser : Account =>
            deleteChildPassword (fetchUserHierarchy
              (Store.ops (s.map Account.forgetReferredUsers)) n referredUser._id))
              ∘ Account.forgetReferredUsers)
          = (User.findReferredBy s u).map fun referredUser =>
            deleteChildPassword (fetchUserHierarchy s.ops n referredUser._id) := by
        apply List.map_congr_left
        intro c _
        simp only [Function.comp, Account.forgetReferredUsers]
        rw [ih]
      rw [hmap]
      rfl

theorem fetchUserHierarchy_leaf (ops : StoreOps) (n : Nat) (u : ObjectId) (node : Node)
    (h : fetchUserHierarchy ops n u = .fulfilled (some node)) (hq : ops.find u = .ok []) :
    node.referredUsers = [] := by
  cases n with
  | zero => simp [fetchUserHierarchy] at h
  | succ n =>
    rw [fetchUserHierarchy] at h
    cases hf : ops.findById u with
    | error msg => simp [hf] at h
    | ok found =>
      cases found with
      | none => simp [hf] at h
      | some user =>
        simp only [hf, hq, List.map_nil, promiseAll, Outcome.fulfilled.injEq,
          Option.some.injEq] at h
        rw [← h]; rfl

/-! ## Acyclicity of concrete collections and under registration -/

/-- A collection in which every account has a larger `_id` than its referrer is
acyclic. -/
theorem acyclic_of_increasing (s : Store)
    (h : ∀ a ∈ s, ∀ p ∈ a.referredBy, p < a._id) : Acyclic s := by
  have hlt : ∀ i j, Relation.TransGen (ReferredBy s) i j → j < i := by
    intro i j hij
    induction hij with
    | single hab =>
      obtain ⟨a, ha, rfl, hp⟩ := hab
      exact h a ha _ (by simp [hp])
    | tail _ hbc ih =>
      obtain ⟨a, ha, rfl, hp⟩ := hbc
      exact Nat.lt_trans (h a ha _ (by simp [hp])) ih
  intro i hi
  exact Nat.lt_irrefl _ (hlt i i hi)

theorem referredBy_iff_mem_links (s : Store) (c p : ObjectId) :
    ReferredBy s c p ↔ (c, some p) ∈ s.map (fun a => (a._id, a.referredBy)) := by
  simp only [ReferredBy, List.mem_map, Prod.mk.injEq]

/-- The update `referrer.save()` changes no `_id` and no `referredBy`. -/
theorem links_pushReferredUser (s : Store) (r i : ObjectId) :
    (pushReferredUser s r i).map (fun a => (a._id, a.referredBy))
      = s.map (fun a => (a._id, a.referredBy)) := by
  induction s with
  | nil => rfl
  | cons a rest ih =>
    rw [pushReferredUser]
    split
    · rfl
    · simp [ih]

theorem referredBy_pushReferredUser (s : Store) (r i : ObjectId) :
    ReferredBy (pushReferredUser s r i) = ReferredBy s := by
  funext c p
  apply propext
  rw [referredBy_iff_mem_links, referredBy_iff_mem_links, links_pushReferredUser]

theorem acyclic_pushReferredUser {s : Store} (r i : ObjectId) (hac : Acyclic s) :
    Acyclic (pushReferredUser s r i) := by
  unfold Acyclic
  rw [referredBy_pushReferredUser]
  exact hac

theorem referredBy_ne_of_pushReferredUser {s : Store} (r i n : ObjectId)
    (h : ∀ a ∈ s, a.referredBy ≠ some n) :
    ∀ a ∈ pushReferredUser s r i, a.referredBy ≠ some n := by
  intro a ha hn
  have hmem : (a._id, some n) ∈ (pushReferredUser s r i).map
      (fun a => (a._id, a.referredBy)) :=
    List.mem_map.mpr ⟨a, ha, by rw [hn]⟩
  rw [links_pushReferredUser] at hmem
  obtain ⟨b, hb, hbeq⟩ := List.mem_map.mp hmem
  exact h b hb (by simpa using congrArg Prod.snd hbeq)

/-- Appending an account whose `_id` is no referrer, neither of a stored account
nor its own, keeps the collection acyclic. -/
theorem acyclic_append {t : Store} {new : Account} (hac : Acyclic t)
    (hold : ∀ a ∈ t, a.referredBy ≠ some new._id) (hnew : new.referredBy ≠ some new._id) :
    Acyclic (t ++ [new]) := by
  have hedge : ∀ c p, ReferredBy (t ++ [new]) c p → ReferredBy t c p ∨ c = new._id := by
    rintro c p ⟨a, ha, hc, hp⟩
    rcases List.mem_append.mp ha with ha | ha
    · exact Or.inl ⟨a, ha, hc, hp⟩
    · right
      rw [List.mem_singleton.mp ha] at hc
      exact hc.symm
  have hparent : ∀ c, ¬ ReferredBy (t ++ [new]) c new._id := by
    rintro c ⟨a, ha, _, hp⟩
    rcases List.mem_append.mp ha with ha | ha
    · exact hold a ha hp
    · rw [List.mem_singleton.mp ha] at hp
      exact hnew hp
  have hlast : ∀ i j, Relation.TransGen (ReferredBy (t ++ [new])) i j →
      ∃ c, ReferredBy (t ++ [new]) c j := by
    intro i j hij
    cases hij with
    | single h => exact ⟨_, h⟩
    | tail _ h => exact ⟨_, h⟩
  have hpath : ∀ i j, Relation.TransGen (ReferredBy (t ++ [new])) i j →
      Relation.TransGen (ReferredBy t) i j ∨ i = new._id := by
    intro i j hij
    induction hij with
    | single h =>
      rcases hedge _ _ h with h | h
      · exact Or.inl (Relation.TransGen.single h)
      · exact Or.inr h
    | @tail b c hib hbc ih =>
      rcases ih with ih | ih
      · rcases hedge _ _ hbc with h | h
        · exact Or.inl (Relation.TransGen.tail ih h)
        · obtain ⟨d, hd⟩ := hlast _ _ hib
          rw [h] at hd
          exact absurd hd (hparent d)
      · exact Or.inr ih
  intro i hi
  rcases hpath i i hi with h | h
  · exact hac i h
  · obtain ⟨d, hd⟩ := hlast _ _ hi
    rw [h] at hd
    exact hparent d hd

theorem acyclic_saveNewUser (env : RegisterEnv) {t : Store} {newUser : Account}
    (hac : Acyclic t) (hold : ∀ a ∈ t, a.referredBy ≠ some newUser._id)
    (hnew : newUser.referredBy ≠ some newUser._id) :
    Acyclic (saveNewUser env t newUser).1 := by
  unfold saveNewUser
  split
  · exact hac
  · exact acyclic_append hac hold hnew

theorem User.findOneByReferralCode_mem {s : Store} {code : String} {a : Account}
    (h : User.findOneByReferralCode s code = some a) : a ∈ s :=
  List.mem_of_find?_eq_some h

/-- Claim C8. Registration keeps the referral graph acyclic: for an acyclic
collection and a request whose generated `_id` is fresh (no stored account has
it as `_id` or as `referredBy`), the collection after `POST /register` is
acyclic, whatever the request holds and whichever step fails. -/
theorem register_preserves_acyclic (env : RegisterEnv) (s : Store) (req : RegisterRequest)
    (hac : Acyclic s) (hfresh : FreshId s env.newId) :
    Acyclic (register env s req).1 := by
  have hold : ∀ a ∈ s, a.referredBy ≠ some env.newId := fun a ha => (hfresh a ha).2
  unfold register
  simp only
  split
  · exact hac
  · split
    · exact acyclic_saveNewUser env hac hold (by simp)
    · split
      · exact acyclic_saveNewUser env hac hold (by simp)
      · split
        · exact hac
        · split
          · exact hac
          · next referrer href =>
            split
            · exact hac
            · apply acyclic_saveNewUser env (acyclic_pushReferredUser _ _ hac)
                (referredBy_ne_of_pushReferredUser _ _ _ hold)
              have hmem := User.findOneByReferralCode_mem href
              simpa using (hfresh referrer hmem).1

/-! ## The hierarchy against the reference tree -/

/-- For the chain alice ← bob ← carol the tree of alice has the single child bob,
whose single child is carol, whose list is empty. -/
theorem fetchUserHierarchy_chain :
    fetchUserHierarchy chainStore.ops 4 1 = .fulfilled (some
      (.mk 1 "alice" "alice@example.com" (some "h1") "AAAAAA" none
        [.mk 2 "bob" "bob@example.com" none "BBBBBB" (some 1)
          [.mk 3 "carol" "carol@example.com" none "CCCCCC" (some 2) []]])) := rfl

/-- The scenario of the specification: alice[bob[dave[]], carol[]]. -/
theorem fetchUserHierarchy_scenario :
    fetchUserHierarchy scenarioStore.ops 5 1 = .fulfilled (some
      (.mk 1 "alice" "alice@example.com" (some "h1") "AAAAAA" none
        [.mk 2 "bob" "bob@example.com" none "BBBBBB" (some 1)
          [.mk 4 "dave" "dave@example.com" none "DDDDDD" (some 2) []],
         .mk 3 "carol" "carol@example.com" none "CCCCCC" (some 1) []])) := rfl

theorem chainStore_acyclic : Acyclic chainStore :=
  acyclic_of_increasing chainStore (by decide)

theorem scenarioStore_acyclic : Acyclic scenarioStore :=
  acyclic_of_increasing scenarioStore (by decide)

/-- Claim C2 as stated fails. On the acyclic chain alice ← bob ← carol the result
for alice is not the reference tree: the tree of the code has no `password`
on bob, the reference tree keeps bob's record unchanged. -/
theorem fetchUserHierarchy_ne_referenceTree :
    Acyclic chainStore ∧ ∃ t node, referenceTree chainStore 4 1 = some t ∧
      fetchUserHierarchy chainStore.ops 4 1 = .fulfilled (some node) ∧ node ≠ t := by
  refine ⟨chainStore_acyclic, _, _, rfl, rfl, ?_⟩
  intro h
  exact absurd (congrArg (fun n => n.referredUsers.map Node.password) h) (by decide)

/-- Claim C2, amended. On an acyclic collection, for every account `a` and every
budget above `s.length`, `fetchUserHierarchy` returns the reference tree of
`a` with the `password` field deleted on every node below the root; the
result is the same for every collection that differs only in the stored
`referredUsers` lists; and an account that nobody is referred by gets an
empty `referredUsers`. -/
theorem fetchUserHierarchy_refines_referenceTree (s : Store) (hac : Acyclic s)
    (a : Account) (ha : a ∈ s) :
    (∀ fuel, s.length < fuel → ∃ t, referenceTree s fuel a._id = some t ∧
      fetchUserHierarchy s.ops fuel a._id = .fulfilled (some t.deletePasswordBelow)) ∧
    (∀ s' : Store, s'.map Account.forgetReferredUsers = s.map Account.forgetReferredUsers →
      ∀ fuel u, fetchUserHierarchy s'.ops fuel u = fetchUserHierarchy s.ops fuel u) ∧
    ((∀ c ∈ s, c.referredBy ≠ some a._id) → ∀ fuel, s.length < fuel →
      ∃ node, fetchUserHierarchy s.ops fuel a._id = .fulfilled (some node) ∧
        node.referredUsers = []) := by
  have hsome : ∀ fuel, s.length < fuel →
      ∃ node, fetchUserHierarchy s.ops fuel a._id = .fulfilled (some node) := by
    intro fuel hfuel
    obtain ⟨r, hr⟩ := fetchUserHierarchy_fulfilled s hac a._id
    cases r with
    | none =>
      have hnone := findById_of_fetchUserHierarchy_null _ _ _ (hr fuel hfuel)
      obtain ⟨b, hb⟩ := User.findById_of_mem ha
      simp [hb] at hnone
    | some node => exact ⟨node, hr fuel hfuel⟩
  refine ⟨?_, ?_, ?_⟩
  · intro fuel hfuel
    obtain ⟨node, hnode⟩ := hsome fuel hfuel
    obtain ⟨t, ht, rfl⟩ := referenceTree_of_fetchUserHierarchy s fuel _ _ hnode
    exact ⟨t, ht, hnode⟩
  · intro s' hs' fuel u
    rw [← fetchUserHierarchy_forgetReferredUsers s', hs',
      fetchUserHierarchy_forgetReferredUsers s]
  · intro hleaf fuel hfuel
    obtain ⟨node, hnode⟩ := hsome fuel hfuel
    refine ⟨node, hnode, fetchUserHierarchy_leaf _ _ _ _ hnode ?_⟩
    have : User.findReferredBy s a._id = [] := by
      simp only [User.findReferredBy, List.filter_eq_nil_iff]
      intro c hc
      simpa using hleaf c hc
    simp [this]

theorem fetchUserHierarchy_refines_referenceTree_witness :
    (∀ fuel, scenarioStore.length < fuel → ∃ t, referenceTree scenarioStore fuel 1 = some t ∧
      fetchUserHierarchy scenarioStore.ops fuel 1 = .fulfilled (some t.deletePasswordBelow)) ∧
    (∀ fuel, scenarioStore.length < fuel →
      ∃ node, fetchUserHierarchy scenarioStore.ops fuel 4 = .fulfilled (some node) ∧
        node.referredUsers = []) :=
  ⟨(fetchUserHierarchy_refines_referenceTree scenarioStore scenarioStore_acyclic
      ⟨1, "alice", "alice@example.com", "h1", "AAAAAA", none, [2, 3]⟩ (by decide)).1,
   (fetchUserHierarchy_refines_referenceTree scenarioStore scenarioStore_acyclic
      ⟨4, "dave", "dave@example.com", "h4", "DDDDDD", some 2, []⟩ (by decide)).2.2
      (by decide)⟩

/-! ## Witnesses on the scenario of the specification -/

theorem getUser_ok_noPassword_witness :
    ∃ node, node.noPassword = true ∧ ∀ fuel, scenarioStore.length < fuel →
      getUser exampleIsValid exampleCastId scenarioStore.ops fuel "000000000000000000000001"
        = some ⟨200, .hierarchy node⟩ :=
  getUser_ok_noPassword exampleIsValid exampleCastId scenarioStore scenarioStore_acyclic
    "000000000000000000000001"
    (by decide) ⟨1, "alice", "alice@example.com", "h1", "AAAAAA", none, [2, 3]⟩
    (by decide) (by decide)

theorem fetchUserHierarchy_terminates_witness :
    WellFounded (ReferredBy chainStore) ∧
      ∃ r, ∀ fuel, chainStore.length < fuel →
        fetchUserHierarchy chainStore.ops fuel 1 = .fulfilled r :=
  fetchUserHierarchy_terminates chainStore chainStore_acyclic 1

theorem getUser_invalid_id_witness :
    exampleIsValid "not-an-id" = false ∧
      getUser exampleIsValid exampleCastId scenarioStore.ops 5 "not-an-id"
        = some ⟨400, .message "Invalid user ID format"⟩ ∧
      getUserTraced exampleIsValid exampleCastId scenarioStore.ops 5 "not-an-id"
        = (some ⟨400, .message "Invalid user ID format"⟩, []) :=
  ⟨by decide, getUser_invalid_id exampleIsValid exampleCastId scenarioStore.ops 5 "not-an-id"
    (by decide)⟩

/-- The log of a request for alice on the scenario of the specification: the
calls and queries of the whole traversal. -/
theorem getUserTraced_scenario :
    (getUserTraced exampleIsValid exampleCastId scenarioStore.ops 5
        "000000000000000000000001").2
      = [.fetchUserHierarchy 1, .findById 1, .find 1,
         .fetchUserHierarchy 2, .findById 2, .find 2,
         .fetchUserHierarchy 4, .findById 4, .find 4,
         .fetchUserHierarchy 3, .findById 3, .find 3] := by
  decide

theorem fetchUserHierarchy_null_iff_absent_witness :
    fetchUserHierarchy scenarioStore.ops 1 9 = .fulfilled none ∧
      getUser exampleIsValid exampleCastId scenarioStore.ops 1 "000000000000000000000009"
        = some ⟨404, .message "User not found"⟩ :=
  ⟨((fetchUserHierarchy_null_iff_absent scenarioStore 9).1 (by decide)).1 1 (by decide),
   ((fetchUserHierarchy_null_iff_absent scenarioStore 9).1 (by decide)).2
      exampleIsValid exampleCastId "000000000000000000000009" 1 (by decide) (by decide) (by decide)⟩

theorem getUser_all_or_nothing_witness :
    ∃ N, ∀ fuel, N ≤ fuel →
      (∃ e, fetchUserHierarchy (faultyOps scenarioStore (fun _ => false) (fun i => i == 2))
        fuel (exampleCastId "000000000000000000000001") = .rejected e) ∧
      getUser exampleIsValid exampleCastId
        (faultyOps scenarioStore (fun _ => false) (fun i => i == 2)) fuel "000000000000000000000001"
          = some ⟨500, .message "Server error"⟩ :=
  (getUser_all_or_nothing exampleIsValid exampleCastId
    (faultyOps scenarioStore (fun _ => false) (fun i => i == 2))
    "000000000000000000000001" (by decide)).1 2
    (@Reaches.child _ 1 2 ⟨1, "alice", "alice@example.com", "h1", "AAAAAA", none, [2, 3]⟩
      (User.findReferredBy scenarioStore 1)
      ⟨2, "bob", "bob@example.com", "h2", "BBBBBB", some 1, [4]⟩
      rfl rfl (by decide) (Reaches.root 2))
    (Or.inr ⟨⟨2, "bob", "bob@example.com", "h2", "BBBBBB", some 1, [4]⟩, "find failed",
      rfl, rfl⟩)

theorem Store.ops_keyed (s : Store) :
    ∀ p cs c, s.ops.find p = .ok cs → c ∈ cs → ∃ a, s.ops.findById c._id = .ok (some a) := by
  intro p cs c hq hc
  simp only [Store.ops_find, Except.ok.injEq] at hq
  subst hq
  obtain ⟨b, hb⟩ := User.findById_of_mem (User.mem_findReferredBy.mp hc).1
  exact ⟨b, by simp [hb]⟩

theorem fetchUserHierarchy_child_not_null_witness :
    (∀ fuel u, fetchUserHierarchy scenarioStore.ops fuel u ≠ .rejected .nullDereference) ∧
      ∃ node, ∀ fuel, scenarioStore.length < fuel →
        fetchUserHierarchy scenarioStore.ops fuel 2 = .fulfilled (some node) :=
  ⟨(fetchUserHierarchy_child_not_null scenarioStore.ops (Store.ops_keyed scenarioStore)).1,
   (fetchUserHierarchy_child_not_null scenarioStore.ops (Store.ops_keyed scenarioStore)).2.2
      scenarioStore rfl scenarioStore_acyclic 1
      ⟨2, "bob", "bob@example.com", "h2", "BBBBBB", some 1, [4]⟩ (by decide)⟩

theorem register_preserves_acyclic_witness :
    FreshId scenarioStore 5 ∧
      Acyclic (register (exampleEnv 5 "EEEEEE") scenarioStore
        ⟨"erin", "erin@example.com", "pw", some "BBBBBB"⟩).1 :=
  ⟨by unfold FreshId; decide,
   register_preserves_acyclic (exampleEnv 5 "EEEEEE") scenarioStore
    ⟨"erin", "erin@example.com", "pw", some "BBBBBB"⟩ scenarioStore_acyclic
    (by unfold FreshId; decide)⟩

/-! ## Registration: what the code does with the credential and the lists -/

/-- Every 201 response of `POST /register` carries the saved document, whose
`password` is the hash of the submitted one. -/
theorem register_created_body (env : RegisterEnv) (s : Store) (req : RegisterRequest)
    (h : (register env s req).2.status = 201) :
    ∃ a, (register env s req).2.body = .document a ∧ a.password = env.hash req.password := by
  have hsave : ∀ t newUser, (saveNewUser env t newUser).2.status = 201 →
      ∃ a, (saveNewUser env t newUser).2.body = .document a ∧
        a.password = env.hash newUser.password := by
    intro t newUser h201
    unfold saveNewUser at h201 ⊢
    split
    · rename_i hc; simp [hc] at h201
    · exact ⟨_, rfl, rfl⟩
  revert h
  unfold register
  simp only
  split
  · intro h; simp at h
  · split
    · exact hsave _ _
    · split
      · exact hsave _ _
      · split
        · intro h; simp at h
        · split
          · intro h; simp at h
          · split
            · intro h; simp at h
            · exact hsave _ _

/-- Claim C7 on the code. Registering alice on the empty collection answers 201 with
a body that has a `password` field, holding the hash of her password. -/
theorem register_created_exposes_password :
    (register (exampleEnv 1 "AAAAAA") []
        ⟨"alice", "alice@example.com", "secret", none⟩).2.status = 201 ∧
      (register (exampleEnv 1 "AAAAAA") []
        ⟨"alice", "alice@example.com", "secret", none⟩).2.body.hasPassword = true ∧
      ∃ a, (register (exampleEnv 1 "AAAAAA") []
        ⟨"alice", "alice@example.com", "secret", none⟩).2.body = .document a ∧
        a.password = "bcrypt:secret" :=
  ⟨rfl, rfl, _, rfl, rfl⟩

/-- Claim C9 on the code. After alice registered, a request with alice's referral
code and alice's email is answered 500 (the unique email index refuses the
new account), yet `referrer.save()` ran before: the reachable collection
holds alice with `referredUsers = [2]` and no account with `_id` 2. -/
theorem register_failure_breaks_referredUsers :
    Reachable (register (exampleEnv 2 "BBBBBB")
        (register (exampleEnv 1 "AAAAAA") []
          ⟨"alice", "alice@example.com", "secret", none⟩).1
        ⟨"bob", "alice@example.com", "hunter2", some "AAAAAA"⟩).1 ∧
      (register (exampleEnv 2 "BBBBBB")
        (register (exampleEnv 1 "AAAAAA") []
          ⟨"alice", "alice@example.com", "secret", none⟩).1
        ⟨"bob", "alice@example.com", "hunter2", some "AAAAAA"⟩).2.status = 500 ∧
      (register (exampleEnv 2 "BBBBBB")
        (register (exampleEnv 1 "AAAAAA") []
          ⟨"alice", "alice@example.com", "secret", none⟩).1
        ⟨"bob", "alice@example.com", "hunter2", some "AAAAAA"⟩).1
        = [⟨1, "alice", "alice@example.com", "bcrypt:secret", "AAAAAA", none, [2]⟩] ∧
      ¬ ReferredUsersExact (register (exampleEnv 2 "BBBBBB")
        (register (exampleEnv 1 "AAAAAA") []
          ⟨"alice", "alice@example.com", "secret", none⟩).1
        ⟨"bob", "alice@example.com", "hunter2", some "AAAAAA"⟩).1 := by
  have hstore : (register (exampleEnv 2 "BBBBBB")
        (register (exampleEnv 1 "AAAAAA") []
          ⟨"alice", "alice@example.com", "secret", none⟩).1
        ⟨"bob", "alice@example.com", "hunter2", some "AAAAAA"⟩).1
        = [⟨1, "alice", "alice@example.com", "bcrypt:secret", "AAAAAA", none, [2]⟩] := rfl
  refine ⟨?_, rfl, hstore, ?_⟩
  · exact Reachable.register (exampleEnv 2 "BBBBBB") _
      (Reachable.register (exampleEnv 1 "AAAAAA") _ Reachable.empty
        (by unfold FreshId; decide))
      (by unfold FreshId; decide)
  · rw [hstore]
    intro h
    obtain ⟨c, hc, hid, _⟩ := (h _ (List.mem_singleton.mpr rfl) 2).mp (by decide)
    rw [List.mem_singleton.mp hc] at hid
    exact absurd hid (by decide)

end ReferralSystem
